import Mathlib

/-!
Verification of the EV-charger / parking-lot matching engine
(`extract_ev_charger_data.py`).

Strings are modelled as `List Char`.  Python's `re` patterns
`(\w+동)` and `(\w+동)\s*(\d+[-\d]*)` are embedded as explicit
leftmost searches with greedy backtracking over the choice of the
final '동'; `str.replace` is embedded as non-overlapping
left-to-right replacement; `dict` is an insertion-ordered
association list with update-in-place semantics.

Character classes: Python's `\w`, `\s`, `\d` are restricted to the
alphabet actually occurring in the data (ASCII alphanumerics,
underscore, Hangul syllables for `\w`; ASCII whitespace for `\s`;
ASCII digits for `\d`).
-/

/-- ASCII alphanumerics, underscore, and Hangul syllables (U+AC00..U+D7A3):
the embedding of the `\w` character class on the relevant alphabet. -/
def isWordChar (c : Char) : Bool :=
  (48 ≤ c.toNat && c.toNat ≤ 57) || (65 ≤ c.toNat && c.toNat ≤ 90) ||
  (97 ≤ c.toNat && c.toNat ≤ 122) || c.toNat == 95 ||
  (0xAC00 ≤ c.toNat && c.toNat ≤ 0xD7A3)

/-- Embedding of the `\s` character class (space, tab, LF, CR, VT, FF). -/
def isSpaceChar (c : Char) : Bool :=
  c.toNat == 32 || c.toNat == 9 || c.toNat == 10 || c.toNat == 13 ||
  c.toNat == 11 || c.toNat == 12

/-- Embedding of the `\d` character class (ASCII digits). -/
def isDigitChar (c : Char) : Bool :=
  48 ≤ c.toNat && c.toNat ≤ 57

/-- A character allowed in the tail `[-\d]*` of the lot-number pattern. -/
def isNumTailChar (c : Char) : Bool :=
  isDigitChar c || c.toNat == 45

/-- The long-form province name 전라남도. -/
def longForm : List Char := "전라남도".data

/-- The short-form province name 전남. -/
def shortForm : List Char := "전남".data

/-- The culture/health-center token 문화건강. -/
def mcToken : List Char := "문화건강".data

/-- The swimming-pool token 수영장. -/
def poolToken : List Char := "수영장".data

/-- The fast-charge keyword 급속. -/
def fastKw : List Char := "급속".data

/-- The slow-charge keyword 완속. -/
def slowKw : List Char := "완속".data

/-- The DC marker. -/
def dcMark : List Char := "DC".data

/-- The AC marker. -/
def acMark : List Char := "AC".data

/-- The unavailable marker 이용불가. -/
def unavailMark : List Char := "이용불가".data

/-- The free-of-charge marker 무료. -/
def freeCost : List Char := "무료".data

/-- The generic filler words stripped from lot names before the keyword test. -/
def commonWords : List (List Char) :=
  ["주차장".data, "공영주차장".data, "공영".data, "주차".data, "제".data,
   "동".data, "지구".data, "타워".data, "수영장".data]

/-- Non-overlapping left-to-right replacement of 전라남도 by 전남:
the embedding of `address.replace("전라남도", "전남")`. -/
def replLong : List Char → List Char
  | c₁ :: c₂ :: c₃ :: c₄ :: rest =>
    if longForm.isPrefixOf (c₁ :: c₂ :: c₃ :: c₄ :: rest) then
      '전' :: '남' :: replLong rest
    else
      c₁ :: replLong (c₂ :: c₃ :: c₄ :: rest)
  | other => other

/-- Embedding of `normalize_address`. -/
def normalize_address (cs : List Char) : List Char :=
  if cs.isEmpty then []
  else if longForm.isPrefixOf cs then replLong cs
  else if shortForm.isPrefixOf cs then cs
  else cs

/-- Indices `k ≥ 1` with `run[k] = '동'`, in decreasing order: the candidate
end positions of the group `(\w+동)` inside a maximal word-character run,
in the order a greedy `\w+` with backtracking tries them. -/
def dongPositions (run : List Char) : List Nat :=
  ((List.range run.length).filter
    (fun k => decide (1 ≤ k) && (run[k]? == some '동'))).reverse

/-- First `some` produced by `f` along a list of candidates. -/
def firstSome {α : Type} (f : Nat → Option α) : List Nat → Option α
  | [] => none
  | k :: ks =>
    match f k with
    | some r => some r
    | none => firstSome f ks

/-- Match of `(\w+동)` anchored at the head of `cs` (greedy). -/
def matchDongAt (cs : List Char) : Option (List Char) :=
  match dongPositions (cs.takeWhile isWordChar) with
  | [] => none
  | k :: _ => some (cs.take (k + 1))

/-- Leftmost search for `(\w+동)`. -/
def searchDong : List Char → Option (List Char)
  | [] => none
  | c :: cs =>
    match matchDongAt (c :: cs) with
    | some r => some r
    | none => searchDong cs

/-- Embedding of `extract_dong_from_address`. -/
def extract_dong_from_address (cs : List Char) : Option (List Char) :=
  if cs.isEmpty then none else searchDong cs

/-- Match of `\s*(\d+[-\d]*)` anchored at the head of `cs`, returning the
numeric group.  Backtracking inside `\s*` can never recover a digit, so
skipping the maximal whitespace run is faithful. -/
def matchNumAt (cs : List Char) : Option (List Char) :=
  match cs.dropWhile isSpaceChar with
  | [] => none
  | c :: t => if isDigitChar c then some ((c :: t).takeWhile isNumTailChar) else none

/-- Match of `(\w+동)\s*(\d+[-\d]*)` anchored at the head of `cs`,
with greedy backtracking over the final '동' of group 1. -/
def matchDongNumAt (cs : List Char) : Option (List Char × List Char) :=
  firstSome
    (fun k => (matchNumAt (cs.drop (k + 1))).map (fun g2 => (cs.take (k + 1), g2)))
    (dongPositions (cs.takeWhile isWordChar))

/-- Leftmost search for `(\w+동)\s*(\d+[-\d]*)`. -/
def searchDongNum : List Char → Option (List Char × List Char)
  | [] => none
  | c :: cs =>
    match matchDongNumAt (c :: cs) with
    | some r => some r
    | none => searchDongNum cs

/-- Embedding of `extract_address_number`: the two groups are joined by a
single space. -/
def extract_address_number (cs : List Char) : Option (List Char) :=
  if cs.isEmpty then none
  else
    match searchDongNum cs with
    | some (g1, g2) => some (g1 ++ ' ' :: g2)
    | none => none

/-- Accumulator-based word splitter. -/
def splitWsAux : List Char → List Char → List (List Char)
  | [], acc => if acc.isEmpty then [] else [acc.reverse]
  | c :: cs, acc =>
    if isSpaceChar c then
      if acc.isEmpty then splitWsAux cs [] else acc.reverse :: splitWsAux cs []
    else splitWsAux cs (c :: acc)

/-- Embedding of Python `str.split()` (split on whitespace runs, no empties). -/
def splitWs (cs : List Char) : List (List Char) := splitWsAux cs []

/-- Python's substring operator `pat in s`: `pat` occurs contiguously in
`s` (the empty string occurs in anything). -/
def isSubstrOf : List Char → List Char → Bool
  | pat, [] => pat.isEmpty
  | pat, c :: cs => pat.isPrefixOf (c :: cs) || isSubstrOf pat cs

/-- One charger record from the external feed (all fields string-typed). -/
structure Charger where
  charger_name : List Char
  address : List Char
  charger_type : List Char
  capacity : List Char
  available_time : List Char
  facility_type : List Char
  convenience : List Char
deriving DecidableEq, Inhabited

/-- One registry row: `(lot_name, total_spaces, address, parking_type,
price_info, charger_info)`. -/
structure LotRow where
  lot_name : List Char
  total_spaces : Nat
  address : List Char
  parking_type : List Char
  price_info : List Char
  charger_info : List Char
deriving DecidableEq, Inhabited

/-- The per-lot record stored in `parking_dict`. -/
structure LotInfo where
  dong_name : List Char
  address : List Char
  address_number : Option (List Char)
deriving DecidableEq, Inhabited

/-- The precomputed per-charger data used by the scoring loop. -/
structure ChargerCtx where
  charger_name : List Char
  address : List Char
  dong : Option (List Char)
  address_number : Option (List Char)
deriving DecidableEq, Inhabited

/-- One aggregated output entry for a matched charger. -/
structure MatchedCharger where
  charger_name : List Char
  charge_type : List Char
  is_available : Bool
  cost : List Char
  capacity : List Char
  available_time : List Char
  facility_type : List Char
  convenience : List Char
deriving DecidableEq, Inhabited

/-- The per-lot value in the output mapping. -/
structure LotMatch where
  has_charger : Bool
  chargers : List MatchedCharger
deriving DecidableEq, Inhabited

/-- Python `dict` assignment `d[k] = v`: update in place if the key exists
(keeping its position), else append. -/
def upsert (k : List Char) (v : LotInfo) :
    List (List Char × LotInfo) → List (List Char × LotInfo)
  | [] => [(k, v)]
  | (k', v') :: rest => if k' = k then (k, v) :: rest else (k', v') :: upsert k v rest

/-- The `parking_dict` entry derived from one registry row. -/
def mkLotInfo (dong : List Char) (row : LotRow) : LotInfo :=
  let na := normalize_address row.address
  ⟨dong, na, extract_address_number na⟩

/-- Building `parking_dict` from `parking_lots` (DONGS_DATA). -/
def buildDict (parking_lots : List (List Char × List LotRow)) :
    List (List Char × LotInfo) :=
  parking_lots.foldl
    (fun d p => p.2.foldl (fun d' row => upsert row.lot_name (mkLotInfo p.1 row) d') d)
    []

/-- Python truthiness of an optional string. -/
def truthy : Option (List Char) → Bool
  | none => false
  | some s => !s.isEmpty

/-- `lot_name in charger_name or charger_name in lot_name`. -/
def lotNameInCharger (lot_name charger_name : List Char) : Bool :=
  isSubstrOf lot_name charger_name || isSubstrOf charger_name lot_name

/-- The lot-name keywords: whitespace tokens that are not filler words and
have length at least 2. -/
def lotNameKeywords (lot_name : List Char) : List (List Char) :=
  (splitWs lot_name).filter
    (fun kw => !(commonWords.contains kw) && decide (2 ≤ kw.length))

/-- The keyword test before the special-case override. -/
def keywordMatchBase (lot_name charger_name : List Char) : Bool :=
  !(lotNameKeywords lot_name).isEmpty &&
    (lotNameKeywords lot_name).any (fun kw => isSubstrOf kw charger_name)

/-- The cultural/health-center special-case trigger: 문화건강 occurs in both
names. -/
def specialCase (lot_name charger_name : List Char) : Bool :=
  isSubstrOf mcToken lot_name && isSubstrOf mcToken charger_name

/-- 수영장 occurs in the charger's or the lot's normalized address. -/
def poolHit (ch : ChargerCtx) (info : LotInfo) : Bool :=
  isSubstrOf poolToken ch.address || isSubstrOf poolToken info.address

/-- The name signal used by rules 4 and 5: name containment, or the keyword
test with the special-case override applied. -/
def nameSignal (lot_name charger_name : List Char) : Bool :=
  lotNameInCharger lot_name charger_name ||
    (specialCase lot_name charger_name || keywordMatchBase lot_name charger_name)

/-- The score accumulated by the dong-gated rules (exact address equality,
lot-number equality, lot-number substring). -/
def normalScore (ch : ChargerCtx) (lot_name : List Char) (info : LotInfo)
    (keyword_match : Bool) : Nat :=
  let lnc := lotNameInCharger lot_name ch.charger_name
  let s1 :=
    if info.address = ch.address then 100
    else if truthy ch.address_number = true ∧ truthy info.address_number = true then
      if ch.address_number = info.address_number ∧ (lnc || keyword_match) = true then 80
      else 0
    else 0
  let s2 :=
    match info.address_number with
    | some lan =>
      if lan ≠ [] ∧ isSubstrOf lan ch.address = true ∧ (lnc || keyword_match) = true then 60
      else 0
    | none => 0
  s1 + s2

/-- `if score > best_score and score >= 60:` update the running best. -/
def updStep (st : Option (List Char) × Nat) (score : Nat) (l : List Char) :
    Option (List Char) × Nat :=
  if st.2 < score ∧ 60 ≤ score then (some l, score) else st

/-- One iteration of the inner loop: evaluate one `(lot_name, lot_info)` pair
against the charger and update the running best.  The three branches mirror
the source's `continue`-structure: the special-case pool branch, the dong
gate, and the accumulating rules with the bottom threshold check. -/
def stepLot (ch : ChargerCtx) (st : Option (List Char) × Nat)
    (e : List Char × LotInfo) : Option (List Char) × Nat :=
  let special := specialCase e.1 ch.charger_name
  let keyword_match := special || keywordMatchBase e.1 ch.charger_name
  if special = true ∧ ch.dong ≠ some e.2.dong_name ∧ poolHit ch e.2 = true then
    updStep st 70 e.1
  else if ch.dong ≠ some e.2.dong_name then st
  else updStep st (normalScore ch e.1 e.2 keyword_match) e.1

/-- The total score one pair accumulates (70 on the special pool path, 0 on
a dong rejection, the rule total otherwise). -/
def pairScore (ch : ChargerCtx) (lot_name : List Char) (info : LotInfo) : Nat :=
  let special := specialCase lot_name ch.charger_name
  let keyword_match := special || keywordMatchBase lot_name ch.charger_name
  if special = true ∧ ch.dong ≠ some info.dong_name ∧ poolHit ch info = true then 70
  else if ch.dong ≠ some info.dong_name then 0
  else normalScore ch lot_name info keyword_match

/-- The running best after scanning the whole index for one charger. -/
def bestFor (ch : ChargerCtx) (dict : List (List Char × LotInfo)) :
    Option (List Char) × Nat :=
  dict.foldl (stepLot ch) (none, 0)

/-- The per-charger normalization/extraction done once before the inner loop. -/
def mkCtx (c : Charger) : ChargerCtx :=
  let addr := normalize_address c.address
  ⟨c.charger_name, addr, extract_dong_from_address addr, extract_address_number addr⟩

/-- Charge-type classification.  `str(capacity)` coincides with `capacity`
for the string-typed field, so the source's duplicated test is one test. -/
def chargeType (charger_type capacity : List Char) : List Char :=
  if isSubstrOf dcMark charger_type || isSubstrOf fastKw capacity ||
      isSubstrOf fastKw capacity then fastKw
  else if isSubstrOf acMark charger_type || isSubstrOf slowKw capacity ||
      isSubstrOf slowKw capacity then slowKw
  else fastKw

/-- Availability flag: false only when the availability-time descriptor is
nonempty and contains 이용불가. -/
def isAvailable (available_time : List Char) : Bool :=
  !(!available_time.isEmpty && isSubstrOf unavailMark available_time)

/-- The output entry appended for a matched charger. -/
def buildEntry (c : Charger) : MatchedCharger :=
  ⟨c.charger_name, chargeType c.charger_type c.capacity,
   isAvailable c.available_time, freeCost, c.capacity, c.available_time,
   c.facility_type, c.convenience⟩

/-- Append one matched charger under lot `l`, creating the lot's entry on
first hit. -/
def addCharger (m : List (List Char × LotMatch)) (l : List Char)
    (e : MatchedCharger) : List (List Char × LotMatch) :=
  let m' := if m.any (fun kv => kv.1 = l) then m else m ++ [(l, ⟨true, []⟩)]
  m'.map (fun kv =>
    if kv.1 = l then (kv.1, ⟨kv.2.has_charger, kv.2.chargers ++ [e]⟩) else kv)

/-- Process one charger: find its best lot and, if one qualified, append the
classified entry. -/
def processCharger (dict : List (List Char × LotInfo))
    (m : List (List Char × LotMatch)) (c : Charger) :
    List (List Char × LotMatch) :=
  match (bestFor (mkCtx c) dict).1 with
  | none => m
  | some l => addCharger m l (buildEntry c)

/-- Embedding of `match_charger_to_parking_lot`. -/
def match_charger_to_parking_lot (chargers : List Charger)
    (parking_lots : List (List Char × List LotRow)) :
    List (List Char × LotMatch) :=
  chargers.foldl (processCharger (buildDict parking_lots)) []

/-- Every character satisfies `isWordChar`. -/
def allWordChars (l : List Char) : Prop := ∀ c ∈ l, isWordChar c = true

/-- Every character satisfies `isSpaceChar`. -/
def allSpaceChars (l : List Char) : Prop := ∀ c ∈ l, isSpaceChar c = true

/-- A dong-token followed by optional whitespace and a digit starts at the
head of `cs`. -/
def patAt (cs : List Char) : Prop :=
  ∃ w ws d rest, cs = w ++ '동' :: (ws ++ d :: rest) ∧ w ≠ [] ∧
    allWordChars w ∧ allSpaceChars ws ∧ isDigitChar d = true

/-- Modelled from the claim's words: somewhere in `cs`, a dong-token is
followed by at least one whitespace character and then a digit. -/
def strictPatIn (cs : List Char) : Prop :=
  ∃ pre w ws d rest, cs = pre ++ w ++ '동' :: (ws ++ d :: rest) ∧ w ≠ [] ∧
    allWordChars w ∧ ws ≠ [] ∧ allSpaceChars ws ∧ isDigitChar d = true

/-- Modelled from the amended claim's words: left-to-right, non-overlapping
replacement of 전라남도 by 전남. -/
inductive ReplRel : List Char → List Char → Prop
  | nil : ReplRel [] []
  | hit (rest out : List Char) : ReplRel rest out →
      ReplRel (longForm ++ rest) (shortForm ++ out)
  | keep (c : Char) (cs out : List Char) :
      longForm.isPrefixOf (c :: cs) = false → ReplRel cs out →
      ReplRel (c :: cs) (c :: out)

/-- Modelled from the claim's words: charge-type classification that also
consults the availability-time descriptor. -/
def claimChargeType (charger_type capacity available_time : List Char) :
    List Char :=
  if isSubstrOf dcMark charger_type || isSubstrOf fastKw capacity ||
      isSubstrOf fastKw available_time then fastKw
  else if isSubstrOf acMark charger_type || isSubstrOf slowKw capacity ||
      isSubstrOf slowKw available_time then slowKw
  else fastKw

/-- The keys of an association list. -/
def keysOfInfo (d : List (List Char × LotInfo)) : List (List Char) :=
  d.map Prod.fst

/-- A one-lot registry used in concrete instantiations. -/
def regA : List (List Char × List LotRow) :=
  [("조례동".data,
    [⟨"수맥골 공영주차장".data, 50, "전라남도 순천시 조례동 1807".data,
      "공영".data, [], []⟩])]

/-- The lot name of `regA`'s single row. -/
def lotAName : List Char := "수맥골 공영주차장".data

/-- The `parking_dict` entry `buildDict regA` produces for `lotAName`. -/
def infoA : LotInfo :=
  ⟨"조례동".data, "전남 순천시 조례동 1807".data, some ("조례동 1807".data)⟩

/-- A charger whose normalized address equals `infoA`'s address exactly. -/
def chargerA : Charger :=
  ⟨"수맥골충전소".data, "전라남도 순천시 조례동 1807".data, "DC콤보".data,
   "100kW".data, "24시간".data, "주차장".data, []⟩

/-- A charger that matches `regA` but has an empty charger-type code and
capacity and a slow-charge keyword in its availability-time descriptor. -/
def chargerB : Charger :=
  ⟨"수맥골충전소".data, "전라남도 순천시 조례동 1807".data, [],
   [], "완속충전기".data, "주차장".data, []⟩

/-- A charger for the special-case instantiation: 문화건강 in its name,
수영장 in its address, and no derivable dong. -/
def chargerC : Charger :=
  ⟨"순천시문화건강센터 충전소".data, "전남 순천시 해룡면 수영장길 12".data,
   "AC완속".data, "7kW".data, "24시간".data, "체육시설".data, []⟩

/-- The lot name of the special-case lot. -/
def lotCName : List Char := "문화건강센터 수영장".data

/-- The indexed form of the special-case lot (registry dong 조례동). -/
def infoC : LotInfo :=
  ⟨"조례동".data, "전남 순천시 조례동 100".data, some ("조례동 100".data)⟩

/-- A charger whose lot-number token equals the lot's but is not a substring
of its address (no whitespace between 조례동 and 1807). -/
def chargerD : Charger :=
  ⟨"수맥골충전소".data, "조례동1807x".data, "DC콤보".data, "100kW".data,
   "24시간".data, "주차장".data, []⟩

/-- A charger whose address yields the same lot-number token as `infoA`
while the two addresses differ, and which also passes the substring rule. -/
def chargerE : Charger :=
  ⟨"수맥골충전소".data, "순천시 조례동 1807".data, "DC콤보".data, "100kW".data,
   "24시간".data, "주차장".data, []⟩

/-- A charger with no recognizable dong token in its address. -/
def chargerF : Charger :=
  ⟨"어딘가충전소".data, "전남 순천시 왕지로 21".data, "DC콤보".data,
   "100kW".data, "24시간".data, "주차장".data, []⟩

theorem updStep_cases (st : Option (List Char) × Nat) (score : Nat) (l : List Char) :
    updStep st score l = st ∨
      (updStep st score l = (some l, score) ∧ 60 ≤ score ∧ st.2 < score) := by
  unfold updStep
  split
  · next h => exact Or.inr ⟨rfl, h.2, h.1⟩
  · exact Or.inl rfl

theorem stepLot_eq_updStep (ch : ChargerCtx) (st : Option (List Char) × Nat)
    (e : List Char × LotInfo) :
    stepLot ch st e = updStep st (pairScore ch e.1 e.2) e.1 := by
  simp only [stepLot, pairScore]
  by_cases h1 : specialCase e.1 ch.charger_name = true ∧
      ch.dong ≠ some e.2.dong_name ∧ poolHit ch e.2 = true
  · rw [if_pos h1, if_pos h1]
  · rw [if_neg h1, if_neg h1]
    by_cases h2 : ch.dong ≠ some e.2.dong_name
    · rw [if_pos h2, if_pos h2]
      simp [updStep]
    · rw [if_neg h2, if_neg h2]

theorem foldl_step_threshold (ch : ChargerCtx) :
    ∀ (dict : List (List Char × LotInfo)) (st : Option (List Char) × Nat),
      (st.1.isSome = true → 60 ≤ st.2) →
      ((dict.foldl (stepLot ch) st).1.isSome = true →
        60 ≤ (dict.foldl (stepLot ch) st).2)
  | [], st, h => h
  | e :: rest, st, h => by
    rw [List.foldl_cons]
    refine foldl_step_threshold ch rest (stepLot ch st e) ?_
    rw [stepLot_eq_updStep]
    rcases updStep_cases st (pairScore ch e.1 e.2) e.1 with hc | ⟨hc, h60, _⟩
    · rw [hc]; exact h
    · rw [hc]; intro _; exact h60

theorem foldl_step_winner (ch : ChargerCtx) :
    ∀ (dict : List (List Char × LotInfo)) (st : Option (List Char) × Nat)
      (l : List Char),
      (dict.foldl (stepLot ch) st).1 = some l →
      st.1 = some l ∨ ∃ info, (l, info) ∈ dict ∧ 60 ≤ pairScore ch l info
  | [], _, _, h => Or.inl h
  | e :: rest, st, l, h => by
    rw [List.foldl_cons] at h
    rcases foldl_step_winner ch rest (stepLot ch st e) l h with h1 | ⟨info, hmem, hsc⟩
    · rw [stepLot_eq_updStep] at h1
      rcases updStep_cases st (pairScore ch e.1 e.2) e.1 with hc | ⟨hc, h60, _⟩
      · rw [hc] at h1; exact Or.inl h1
      · rw [hc] at h1
        obtain rfl : e.1 = l := Option.some.inj h1
        exact Or.inr ⟨e.2, List.mem_cons_self e rest, h60⟩
    · exact Or.inr ⟨info, List.mem_cons_of_mem e hmem, hsc⟩

theorem mem_upsert (k : List Char) (v : LotInfo) :
    ∀ (d : List (List Char × LotInfo)) (l : List Char) (info : LotInfo),
      (l, info) ∈ upsert k v d → (l = k ∧ info = v) ∨ (l, info) ∈ d
  | [], l, info, h => by
    simp only [upsert, List.mem_singleton] at h
    exact Or.inl ⟨congrArg Prod.fst h, congrArg Prod.snd h⟩
  | (k', v') :: rest, l, info, h => by
    simp only [upsert] at h
    split at h
    · rcases List.mem_cons.mp h with h1 | h1
      · exact Or.inl ⟨congrArg Prod.fst h1, congrArg Prod.snd h1⟩
      · exact Or.inr (List.mem_cons_of_mem _ h1)
    · rcases List.mem_cons.mp h with h1 | h1
      · exact Or.inr (List.mem_cons.mpr (Or.inl h1))
      · rcases mem_upsert k v rest l info h1 with h2 | h2
        · exact Or.inl h2
        · exact Or.inr (List.mem_cons_of_mem _ h2)

theorem keys_upsert (k : List Char) (v : LotInfo) :
    ∀ (d : List (List Char × LotInfo)) (l : List Char),
      l ∈ keysOfInfo (upsert k v d) → l = k ∨ l ∈ keysOfInfo d := by
  intro d l h
  obtain ⟨⟨l', info⟩, hmem, rfl⟩ := List.mem_map.mp h
  rcases mem_upsert k v d l' info hmem with ⟨h1, -⟩ | h1
  · exact Or.inl h1
  · exact Or.inr (List.mem_map.mpr ⟨(l', info), h1, rfl⟩)

theorem nodup_keys_upsert (k : List Char) (v : LotInfo) :
    ∀ (d : List (List Char × LotInfo)),
      (keysOfInfo d).Nodup → (keysOfInfo (upsert k v d)).Nodup
  | [], _ => by simp [upsert, keysOfInfo]
  | (k', v') :: rest, h => by
    simp only [keysOfInfo, List.map_cons, List.nodup_cons] at h
    simp only [upsert]
    split
    · next heq =>
      subst heq
      simp only [keysOfInfo, List.map_cons, List.nodup_cons]
      exact h
    · next hne =>
      simp only [keysOfInfo, List.map_cons, List.nodup_cons]
      refine ⟨fun hc => ?_, nodup_keys_upsert k v rest h.2⟩
      rcases keys_upsert k v rest k' hc with h1 | h1
      · exact hne h1
      · exact h.1 h1

theorem mem_keys_unique :
    ∀ (d : List (List Char × LotInfo)) (l : List Char) (i₁ i₂ : LotInfo),
      (keysOfInfo d).Nodup → (l, i₁) ∈ d → (l, i₂) ∈ d → i₁ = i₂
  | [], _, _, _, _, h, _ => nomatch h
  | (k, v) :: rest, l, i₁, i₂, hnd, h1, h2 => by
    simp only [keysOfInfo, List.map_cons, List.nodup_cons] at hnd
    rcases List.mem_cons.mp h1 with e1 | e1 <;> rcases List.mem_cons.mp h2 with e2 | e2
    · rw [Prod.ext_iff] at e1 e2
      exact e1.2.trans e2.2.symm
    · exfalso
      apply hnd.1
      obtain rfl : l = k := congrArg Prod.fst e1
      exact List.mem_map.mpr ⟨(l, i₂), e2, rfl⟩
    · exfalso
      apply hnd.1
      obtain rfl : l = k := congrArg Prod.fst e2
      exact List.mem_map.mpr ⟨(l, i₁), e1, rfl⟩
    · exact mem_keys_unique rest l i₁ i₂ hnd.2 e1 e2

theorem mem_innerFold (dong : List Char) :
    ∀ (rows : List LotRow) (d : List (List Char × LotInfo)) (l : List Char)
      (info : LotInfo),
      (l, info) ∈ rows.foldl (fun d' row => upsert row.lot_name (mkLotInfo dong row) d') d →
      (l, info) ∈ d ∨ ∃ row ∈ rows, row.lot_name = l
  | [], _, _, _, h => Or.inl h
  | row :: rest, d, l, info, h => by
    rw [List.foldl_cons] at h
    rcases mem_innerFold dong rest _ l info h with h1 | ⟨row', hmem, hname⟩
    · rcases mem_upsert row.lot_name (mkLotInfo dong row) d l info h1 with ⟨h2, -⟩ | h2
      · exact Or.inr ⟨row, List.mem_cons_self row rest, h2.symm⟩
      · exact Or.inl h2
    · exact Or.inr ⟨row', List.mem_cons_of_mem row hmem, hname⟩

theorem nodup_innerFold (dong : List Char) :
    ∀ (rows : List LotRow) (d : List (List Char × LotInfo)),
      (keysOfInfo d).Nodup →
      (keysOfInfo (rows.foldl (fun d' row => upsert row.lot_name (mkLotInfo dong row) d') d)).Nodup
  | [], _, h => h
  | row :: rest, d, h => by
    rw [List.foldl_cons]
    exact nodup_innerFold dong rest _ (nodup_keys_upsert _ _ d h)

theorem mem_outerFold :
    ∀ (lots : List (List Char × List LotRow)) (d : List (List Char × LotInfo))
      (l : List Char) (info : LotInfo),
      (l, info) ∈ lots.foldl
        (fun d p => p.2.foldl (fun d' row => upsert row.lot_name (mkLotInfo p.1 row) d') d) d →
      (l, info) ∈ d ∨ ∃ p ∈ lots, ∃ row ∈ p.2, row.lot_name = l
  | [], _, _, _, h => Or.inl h
  | p :: rest, d, l, info, h => by
    rw [List.foldl_cons] at h
    rcases mem_outerFold rest _ l info h with h1 | ⟨p', hp, row, hrow, hname⟩
    · rcases mem_innerFold p.1 p.2 d l info h1 with h2 | ⟨row, hrow, hname⟩
      · exact Or.inl h2
      · exact Or.inr ⟨p, List.mem_cons_self p rest, row, hrow, hname⟩
    · exact Or.inr ⟨p', List.mem_cons_of_mem p hp, row, hrow, hname⟩

theorem buildDict_mem (lots : List (List Char × List LotRow)) (l : List Char)
    (info : LotInfo) (h : (l, info) ∈ buildDict lots) :
    ∃ p ∈ lots, ∃ row ∈ p.2, row.lot_name = l := by
  rcases mem_outerFold lots [] l info h with h1 | h1
  · exact absurd h1 (List.not_mem_nil (l, info))
  · exact h1

theorem buildDict_nodup :
    ∀ (lots : List (List Char × List LotRow)), (keysOfInfo (buildDict lots)).Nodup := by
  intro lots
  suffices hgen : ∀ (ls : List (List Char × List LotRow)) (d : List (List Char × LotInfo)),
      (keysOfInfo d).Nodup →
      (keysOfInfo (ls.foldl
        (fun d p => p.2.foldl (fun d' row => upsert row.lot_name (mkLotInfo p.1 row) d') d) d)).Nodup by
    exact hgen lots [] (by simp [keysOfInfo])
  intro ls
  induction ls with
  | nil => exact fun d h => h
  | cons p rest ih =>
    intro d h
    rw [List.foldl_cons]
    exact ih _ (nodup_innerFold p.1 p.2 d h)

/-- The keys of the output association list. -/
def keysOfMatch (m : List (List Char × LotMatch)) : List (List Char) :=
  m.map Prod.fst

theorem keys_addCharger (m : List (List Char × LotMatch)) (l : List Char)
    (e : MatchedCharger) (l' : List Char)
    (h : l' ∈ keysOfMatch (addCharger m l e)) : l' ∈ keysOfMatch m ∨ l' = l := by
  unfold addCharger at h
  have hmapfst : ∀ (mm : List (List Char × LotMatch)),
      keysOfMatch (mm.map (fun kv =>
        if kv.1 = l then (kv.1, ⟨kv.2.has_charger, kv.2.chargers ++ [e]⟩) else kv)) =
      keysOfMatch mm := by
    intro mm
    induction mm with
    | nil => rfl
    | cons kv rest ih =>
      simp only [List.map_cons, keysOfMatch] at ih ⊢
      rw [ih]
      by_cases hkv : kv.1 = l
      · rw [if_pos hkv]
      · rw [if_neg hkv]
  rw [hmapfst] at h
  by_cases hin : m.any (fun kv => kv.1 = l)
  · rw [if_pos hin] at h
    exact Or.inl h
  · rw [if_neg hin] at h
    simp only [keysOfMatch, List.map_append, List.map_cons, List.map_nil,
      List.mem_append, List.mem_singleton] at h
    exact h

theorem matchFold_key (dict : List (List Char × LotInfo)) :
    ∀ (chargers : List Charger) (m : List (List Char × LotMatch)) (l : List Char)
      (lm : LotMatch),
      (l, lm) ∈ chargers.foldl (processCharger dict) m →
      l ∈ keysOfMatch m ∨ ∃ c ∈ chargers, (bestFor (mkCtx c) dict).1 = some l
  | [], m, l, lm, h => Or.inl (List.mem_map.mpr ⟨(l, lm), h, rfl⟩)
  | c :: rest, m, l, lm, h => by
    rw [List.foldl_cons] at h
    rcases matchFold_key dict rest (processCharger dict m c) l lm h with h1 | ⟨c', hc, hb⟩
    · unfold processCharger at h1
      cases hbc : (bestFor (mkCtx c) dict).1 with
      | none => rw [hbc] at h1; exact Or.inl h1
      | some l' =>
        rw [hbc] at h1
        rcases keys_addCharger m l' (buildEntry c) l h1 with h2 | h2
        · exact Or.inl h2
        · exact Or.inr ⟨c, List.mem_cons_self c rest, by rw [hbc, h2]⟩
    · exact Or.inr ⟨c', List.mem_cons_of_mem c hc, hb⟩

theorem addCharger_entry (m : List (List Char × LotMatch)) (l : List Char)
    (e : MatchedCharger) (l' : List Char) (lm' : LotMatch) (mc : MatchedCharger)
    (hmem : (l', lm') ∈ addCharger m l e) (hin : mc ∈ lm'.chargers) :
    (∃ lm₀, (l', lm₀) ∈ m ∧ mc ∈ lm₀.chargers) ∨ mc = e := by
  unfold addCharger at hmem
  obtain ⟨kv, hkv, himg⟩ := List.mem_map.mp hmem
  have hkv' : kv ∈ m ∨ kv = (l, (⟨true, []⟩ : LotMatch)) := by
    by_cases hany : m.any (fun kv => kv.1 = l)
    · rw [if_pos hany] at hkv
      exact Or.inl hkv
    · rw [if_neg hany] at hkv
      rcases List.mem_append.mp hkv with h1 | h1
      · exact Or.inl h1
      · exact Or.inr (List.mem_singleton.mp h1)
  by_cases heq : kv.1 = l
  · rw [if_pos heq] at himg
    have hl' : l' = kv.1 := (congrArg Prod.fst himg).symm
    have hlm' : lm' = ⟨kv.2.has_charger, kv.2.chargers ++ [e]⟩ :=
      (congrArg Prod.snd himg).symm
    rw [hlm'] at hin
    rcases List.mem_append.mp hin with h1 | h1
    · rcases hkv' with h2 | h2
      · exact Or.inl ⟨kv.2, by rw [hl']; exact ⟨h2, h1⟩⟩
      · rw [h2] at h1
        exact absurd h1 (List.not_mem_nil mc)
    · exact Or.inr (List.mem_singleton.mp h1)
  · rw [if_neg heq] at himg
    rcases hkv' with h2 | h2
    · exact Or.inl ⟨lm', himg ▸ h2, hin⟩
    · exact absurd (by rw [h2] : kv.1 = l) heq

theorem matchFold_entry (dict : List (List Char × LotInfo)) :
    ∀ (chargers : List Charger) (m : List (List Char × LotMatch)) (l : List Char)
      (lm : LotMatch) (mc : MatchedCharger),
      (l, lm) ∈ chargers.foldl (processCharger dict) m → mc ∈ lm.chargers →
      (∃ lm₀, (l, lm₀) ∈ m ∧ mc ∈ lm₀.chargers) ∨ ∃ c ∈ chargers, mc = buildEntry c
  | [], _, _, _, _, h, hin => Or.inl ⟨_, h, hin⟩
  | c :: rest, m, l, lm, mc, h, hin => by
    rw [List.foldl_cons] at h
    rcases matchFold_entry dict rest (processCharger dict m c) l lm mc h hin with
      ⟨lm₀, hmem, hin₀⟩ | ⟨c', hc, hbe⟩
    · unfold processCharger at hmem
      cases hbc : (bestFor (mkCtx c) dict).1 with
      | none =>
        rw [hbc] at hmem
        exact Or.inl ⟨lm₀, hmem, hin₀⟩
      | some l' =>
        rw [hbc] at hmem
        rcases addCharger_entry m l' (buildEntry c) l lm₀ mc hmem hin₀ with h1 | h1
        · exact Or.inl h1
        · exact Or.inr ⟨c, List.mem_cons_self c rest, h1⟩
    · exact Or.inr ⟨c', List.mem_cons_of_mem c hc, hbe⟩

theorem digit_not_space (c : Char) (h : isDigitChar c = true) :
    isSpaceChar c = false := by
  simp only [isDigitChar, Bool.and_eq_true, decide_eq_true_eq] at h
  simp only [isSpaceChar, Bool.or_eq_false_iff, beq_eq_false_iff_ne, ne_eq]
  omega

theorem digit_numTail (c : Char) (h : isDigitChar c = true) :
    isNumTailChar c = true := by
  simp only [isNumTailChar, Bool.or_eq_true]
  exact Or.inl h

theorem word_dong : isWordChar '동' = true := by decide

theorem takeWhile_append_all (p : Char → Bool) :
    ∀ (l₁ l₂ : List Char), (∀ c ∈ l₁, p c = true) →
      (l₁ ++ l₂).takeWhile p = l₁ ++ l₂.takeWhile p
  | [], l₂, _ => by simp
  | c :: l₁, l₂, h => by
    have hc : p c = true := h c (List.mem_cons_self c l₁)
    simp only [List.cons_append, List.takeWhile_cons, hc, if_true]
    rw [takeWhile_append_all p l₁ l₂ (fun d hd => h d (List.mem_cons_of_mem c hd))]

theorem dropWhile_append_all (p : Char → Bool) :
    ∀ (l₁ l₂ : List Char), (∀ c ∈ l₁, p c = true) →
      (l₁ ++ l₂).dropWhile p = l₂.dropWhile p
  | [], l₂, _ => by simp
  | c :: l₁, l₂, h => by
    have hc : p c = true := h c (List.mem_cons_self c l₁)
    simp only [List.cons_append, List.dropWhile_cons, hc, if_true]
    exact dropWhile_append_all p l₁ l₂ (fun d hd => h d (List.mem_cons_of_mem c hd))

theorem firstSome_eq_none {α : Type} (f : Nat → Option α) :
    ∀ ks : List Nat, firstSome f ks = none ↔ ∀ k ∈ ks, f k = none
  | [] => by simp [firstSome]
  | k :: ks => by
    unfold firstSome
    cases hk : f k with
    | some r => simp [hk]
    | none =>
      rw [firstSome_eq_none f ks]
      constructor
      · intro h k' hk'
        rcases List.mem_cons.mp hk' with h1 | h1
        · rw [h1]; exact hk
        · exact h k' h1
      · intro h k' hk'
        exact h k' (List.mem_cons_of_mem k hk')

theorem firstSome_eq_some {α : Type} (f : Nat → Option α) :
    ∀ (ks : List Nat) (r : α), firstSome f ks = some r → ∃ k ∈ ks, f k = some r
  | [], _, h => by simp [firstSome] at h
  | k :: ks, r, h => by
    unfold firstSome at h
    cases hk : f k with
    | some r' =>
      rw [hk] at h
      exact ⟨k, List.mem_cons_self k ks, hk.trans h⟩
    | none =>
      rw [hk] at h
      obtain ⟨k', hk', hf⟩ := firstSome_eq_some f ks r h
      exact ⟨k', List.mem_cons_of_mem k hk', hf⟩

theorem mem_dongPositions (run : List Char) (k : Nat) :
    k ∈ dongPositions run ↔ 1 ≤ k ∧ k < run.length ∧ run[k]? = some '동' := by
  simp only [dongPositions, List.mem_reverse, List.mem_filter, List.mem_range,
    Bool.and_eq_true, decide_eq_true_eq, beq_iff_eq]
  tauto

theorem matchNumAt_some (cs num : List Char) (h : matchNumAt cs = some num) :
    ∃ ws d tail rest, cs = ws ++ (d :: tail) ++ rest ∧ allSpaceChars ws ∧
      isDigitChar d = true ∧ num = d :: tail ∧ ∀ c ∈ tail, isNumTailChar c = true := by
  unfold matchNumAt at h
  cases hdw : cs.dropWhile isSpaceChar with
  | nil => rw [hdw] at h; exact absurd h (by simp)
  | cons c t =>
    rw [hdw] at h
    dsimp only at h
    by_cases hd : isDigitChar c = true
    · rw [if_pos hd] at h
      have hnum : num = (c :: t).takeWhile isNumTailChar := (Option.some.inj h).symm
      have hct : isNumTailChar c = true := digit_numTail c hd
      rw [List.takeWhile_cons, if_pos hct] at hnum
      have h1 : cs = cs.takeWhile isSpaceChar ++ (c :: t) := by
        conv_lhs => rw [← List.takeWhile_append_dropWhile (p := isSpaceChar) (l := cs)]
        rw [hdw]
      have h2 : t = t.takeWhile isNumTailChar ++ t.dropWhile isNumTailChar :=
        (List.takeWhile_append_dropWhile isNumTailChar t).symm
      refine ⟨cs.takeWhile isSpaceChar, c, t.takeWhile isNumTailChar,
        t.dropWhile isNumTailChar, ?_, ?_, hd, hnum, ?_⟩
      · conv_lhs => rw [h1]
        conv_lhs => rw [h2]
        simp [List.append_assoc]
      · exact fun c' hc' => List.mem_takeWhile_imp hc'
      · exact fun c' hc' => List.mem_takeWhile_imp hc'
    · rw [if_neg hd] at h
      exact absurd h (by simp)

theorem matchNumAt_ne_none (ws : List Char) (d : Char) (rest : List Char)
    (hws : allSpaceChars ws) (hd : isDigitChar d = true) :
    matchNumAt (ws ++ d :: rest) ≠ none := by
  unfold matchNumAt
  rw [dropWhile_append_all isSpaceChar ws (d :: rest) hws, List.dropWhile_cons,
    digit_not_space d hd]
  simp [hd]

theorem matchDongNumAt_some (cs : List Char) (g1 g2 : List Char)
    (h : matchDongNumAt cs = some (g1, g2)) :
    ∃ w ws d tail rest, cs = (w ++ ['동']) ++ ws ++ (d :: tail) ++ rest ∧
      w ≠ [] ∧ allWordChars w ∧ g1 = w ++ ['동'] ∧ allSpaceChars ws ∧
      isDigitChar d = true ∧ g2 = d :: tail ∧ ∀ c ∈ tail, isNumTailChar c = true := by
  unfold matchDongNumAt at h
  obtain ⟨k, hk, hf⟩ := firstSome_eq_some _ _ _ h
  rw [mem_dongPositions] at hk
  obtain ⟨hk1, hklen, hkdong⟩ := hk
  obtain ⟨g2', hm, hfa⟩ := Option.map_eq_some'.mp hf
  have hg1 : g1 = cs.take (k + 1) := (congrArg Prod.fst hfa).symm
  have hg2a : g2 = g2' := (congrArg Prod.snd hfa).symm
  have hrunpre : cs.takeWhile isWordChar ++ cs.dropWhile isWordChar = cs :=
    List.takeWhile_append_dropWhile isWordChar cs
  have hcsk : cs[k]? = some '동' := by
    conv_lhs => rw [← hrunpre]
    rw [List.getElem?_append, if_pos hklen]
    exact hkdong
  have hw_all : ∀ c ∈ cs.take k, isWordChar c = true := by
    intro c hc
    have htk : cs.take k = (cs.takeWhile isWordChar).take k := by
      conv_lhs => rw [← hrunpre]
      rw [List.take_append_of_le_length (Nat.le_of_lt hklen)]
    rw [htk] at hc
    exact List.mem_takeWhile_imp (List.mem_of_mem_take hc)
  obtain ⟨hkcs, hckv⟩ := List.getElem?_eq_some.mp hcsk
  have hck : cs[k] = '동' := hckv
  have hsplit : cs = cs.take k ++ '동' :: cs.drop (k + 1) := by
    conv_lhs => rw [← List.take_append_drop k cs]
    rw [List.drop_eq_getElem_cons hkcs, hck]
  have htk1 : cs.take (k + 1) = cs.take k ++ ['동'] := by
    rw [List.take_succ, hcsk]
    rfl
  obtain ⟨ws, d, tail, rest, hdec, hws, hd, hg2b, htail⟩ := matchNumAt_some _ _ hm
  refine ⟨cs.take k, ws, d, tail, rest, ?_, ?_, hw_all, hg1.trans htk1, hws, hd,
    hg2a.trans hg2b, htail⟩
  · conv_lhs => rw [hsplit]
    rw [hdec]
    simp [List.append_assoc]
  · have hlen : (cs.take k).length = k := by
      rw [List.length_take]
      omega
    intro hnil
    rw [hnil] at hlen
    simp at hlen
    omega

theorem matchDongNumAt_ne_none (cs : List Char) (h : patAt cs) :
    matchDongNumAt cs ≠ none := by
  obtain ⟨w, ws, d, rest, hdec, hwne, hword, hws, hd⟩ := h
  have hassoc : cs = (w ++ ['동']) ++ (ws ++ d :: rest) := by
    rw [hdec]
    simp [List.append_assoc]
  have hwd : ∀ c ∈ w ++ ['동'], isWordChar c = true := by
    intro c hc
    rcases List.mem_append.mp hc with h1 | h1
    · exact hword c h1
    · rw [List.mem_singleton.mp h1]
      exact word_dong
  have hrun : cs.takeWhile isWordChar =
      (w ++ ['동']) ++ (ws ++ d :: rest).takeWhile isWordChar := by
    conv_lhs => rw [hassoc]
    exact takeWhile_append_all _ _ _ hwd
  have hk0mem : w.length ∈ dongPositions (cs.takeWhile isWordChar) := by
    rw [mem_dongPositions]
    refine ⟨List.length_pos.mpr hwne, ?_, ?_⟩
    · rw [hrun]
      simp [List.length_append]
    · rw [hrun, List.getElem?_append,
        if_pos (by simp : w.length < (w ++ ['동']).length)]
      simp
  have hdrop : cs.drop (w.length + 1) = ws ++ d :: rest := by
    have hlen : w.length + 1 = (w ++ ['동']).length := by simp
    rw [hassoc, hlen, List.drop_left]
  intro hnone
  unfold matchDongNumAt at hnone
  rw [firstSome_eq_none] at hnone
  have hres := hnone w.length hk0mem
  rw [hdrop] at hres
  have hm : matchNumAt (ws ++ d :: rest) = none := by
    cases hmm : matchNumAt (ws ++ d :: rest) with
    | none => rfl
    | some g =>
      rw [hmm] at hres
      simp at hres
  exact matchNumAt_ne_none ws d rest hws hd hm

theorem matchDongNumAt_none_iff (cs : List Char) :
    matchDongNumAt cs = none ↔ ¬ patAt cs := by
  constructor
  · intro h hp
    exact matchDongNumAt_ne_none cs hp h
  · intro hp
    cases hm : matchDongNumAt cs with
    | none => rfl
    | some r =>
      exfalso
      apply hp
      obtain ⟨g1, g2⟩ := r
      obtain ⟨w, ws, d, tail, rest, hdec, hwne, hword, -, hws, hd, -, -⟩ :=
        matchDongNumAt_some cs g1 g2 hm
      exact ⟨w, ws, d, tail ++ rest,
        by rw [hdec]; simp [List.append_assoc], hwne, hword, hws, hd⟩

theorem not_patAt_nil : ¬ patAt [] := by
  rintro ⟨w, ws, d, rest, hdec, -, -, -, -⟩
  exact absurd hdec.symm (by simp)

theorem searchDongNum_none_iff :
    ∀ cs : List Char, searchDongNum cs = none ↔ ∀ i, ¬ patAt (cs.drop i)
  | [] => by
    simp only [searchDongNum, List.drop_nil, true_iff]
    intro i
    exact not_patAt_nil
  | c :: cs => by
    constructor
    · intro h i
      unfold searchDongNum at h
      cases hm : matchDongNumAt (c :: cs) with
      | some r => rw [hm] at h; exact absurd h (by simp)
      | none =>
        rw [hm] at h
        cases i with
        | zero => exact (matchDongNumAt_none_iff (c :: cs)).mp hm
        | succ i =>
          have := (searchDongNum_none_iff cs).mp h
          exact this i
    · intro h
      unfold searchDongNum
      have hm : matchDongNumAt (c :: cs) = none :=
        (matchDongNumAt_none_iff (c :: cs)).mpr (h 0)
      rw [hm]
      exact (searchDongNum_none_iff cs).mpr (fun i => h (i + 1))

theorem searchDongNum_some :
    ∀ (cs : List Char) (g1 g2 : List Char),
      searchDongNum cs = some (g1, g2) →
      ∃ i, (∀ j, j < i → ¬ patAt (cs.drop j)) ∧
        matchDongNumAt (cs.drop i) = some (g1, g2)
  | [], g1, g2, h => by simp [searchDongNum] at h
  | c :: cs, g1, g2, h => by
    unfold searchDongNum at h
    cases hm : matchDongNumAt (c :: cs) with
    | some r =>
      rw [hm] at h
      refine ⟨0, fun j hj => absurd hj (Nat.not_lt_zero j), ?_⟩
      rw [List.drop_zero, hm]
      exact h
    | none =>
      rw [hm] at h
      obtain ⟨i, hmin, hmatch⟩ := searchDongNum_some cs g1 g2 h
      refine ⟨i + 1, ?_, hmatch⟩
      intro j hj
      cases j with
      | zero =>
        rw [List.drop_zero]
        exact (matchDongNumAt_none_iff (c :: cs)).mp hm
      | succ j => exact hmin j (Nat.lt_of_succ_lt_succ hj)

theorem longForm_eq_chars : longForm = ['전', '라', '남', '도'] := by decide

theorem shortForm_eq_chars : shortForm = ['전', '남'] := by decide

theorem isPrefixOf_true_iff :
    ∀ (p l : List Char), p.isPrefixOf l = true ↔ ∃ t, l = p ++ t
  | [], l => by simp [List.isPrefixOf]
  | a :: p, [] => by
    constructor
    · intro h
      simp [List.isPrefixOf] at h
    · rintro ⟨t, ht⟩
      simp at ht
  | a :: p, b :: l => by
    simp only [List.isPrefixOf, Bool.and_eq_true, beq_iff_eq]
    rw [isPrefixOf_true_iff p l]
    constructor
    · rintro ⟨rfl, t, rfl⟩
      exact ⟨t, rfl⟩
    · rintro ⟨t, ht⟩
      injection ht with h1 h2
      exact ⟨h1.symm, t, h2⟩

theorem longForm_not_pre_short (X : List Char) :
    longForm.isPrefixOf ('전' :: '남' :: X) = false := by
  rw [longForm_eq_chars]
  have h1 : ('라' == '남') = false := by decide
  simp [List.isPrefixOf, h1]

theorem replLong_rel : ∀ cs : List Char, ReplRel cs (replLong cs)
  | [] => ReplRel.nil
  | [c] => by
    have hp : longForm.isPrefixOf [c] = false := by
      rw [longForm_eq_chars]
      simp [List.isPrefixOf]
    exact ReplRel.keep c [] [] hp ReplRel.nil
  | [c, d] => by
    have hp : longForm.isPrefixOf [c, d] = false := by
      rw [longForm_eq_chars]
      simp [List.isPrefixOf]
    have hp2 : longForm.isPrefixOf [d] = false := by
      rw [longForm_eq_chars]
      simp [List.isPrefixOf]
    exact ReplRel.keep c [d] [d] hp (ReplRel.keep d [] [] hp2 ReplRel.nil)
  | [c, d, e] => by
    have hp : longForm.isPrefixOf [c, d, e] = false := by
      rw [longForm_eq_chars]
      simp [List.isPrefixOf]
    have hp2 : longForm.isPrefixOf [d, e] = false := by
      rw [longForm_eq_chars]
      simp [List.isPrefixOf]
    have hp3 : longForm.isPrefixOf [e] = false := by
      rw [longForm_eq_chars]
      simp [List.isPrefixOf]
    exact ReplRel.keep c [d, e] [d, e] hp
      (ReplRel.keep d [e] [e] hp2 (ReplRel.keep e [] [] hp3 ReplRel.nil))
  | c₁ :: c₂ :: c₃ :: c₄ :: rest => by
    by_cases h : longForm.isPrefixOf (c₁ :: c₂ :: c₃ :: c₄ :: rest) = true
    · obtain ⟨t, ht⟩ := (isPrefixOf_true_iff _ _).mp h
      rw [longForm_eq_chars] at ht
      injection ht with e1 ht
      injection ht with e2 ht
      injection ht with e3 ht
      injection ht with e4 ht
      subst e1
      subst e2
      subst e3
      subst e4
      subst ht
      rw [replLong, if_pos h]
      have hL : ('전' : Char) :: '라' :: '남' :: '도' :: rest = longForm ++ rest := by
        rw [longForm_eq_chars]
        simp
      have hS : ('전' : Char) :: '남' :: replLong rest = shortForm ++ replLong rest := by
        rw [shortForm_eq_chars]
        simp
      rw [hL, hS]
      exact ReplRel.hit rest (replLong rest) (replLong_rel rest)
    · have hb : longForm.isPrefixOf (c₁ :: c₂ :: c₃ :: c₄ :: rest) = false :=
        Bool.eq_false_iff.mpr h
      rw [replLong, if_neg h]
      exact ReplRel.keep c₁ (c₂ :: c₃ :: c₄ :: rest) (replLong (c₂ :: c₃ :: c₄ :: rest))
        hb (replLong_rel (c₂ :: c₃ :: c₄ :: rest))

theorem normalize_eq_of_no_long (cs : List Char)
    (h : longForm.isPrefixOf cs = false) : normalize_address cs = cs := by
  unfold normalize_address
  by_cases he : cs.isEmpty = true
  · rw [if_pos he]
    exact (List.isEmpty_iff.mp he).symm
  · rw [if_neg he, if_neg (by simp [h])]
    split <;> rfl

theorem normalize_eq_repl (cs : List Char)
    (h : longForm.isPrefixOf cs = true) : normalize_address cs = replLong cs := by
  have hne : cs.isEmpty = false := by
    obtain ⟨t, rfl⟩ := (isPrefixOf_true_iff _ _).mp h
    rw [longForm_eq_chars]
    rfl
  unfold normalize_address
  rw [if_neg (by simp [hne]), if_pos h]

theorem replLong_long_head (t : List Char) :
    replLong (longForm ++ t) = '전' :: '남' :: replLong t := by
  show replLong ('전' :: '라' :: '남' :: '도' :: t) = '전' :: '남' :: replLong t
  rw [replLong, if_pos]
  rw [isPrefixOf_true_iff]
  exact ⟨t, by rw [longForm_eq_chars]; simp⟩

theorem chargeType_spec (t cap : List Char) :
    chargeType t cap =
      if isSubstrOf dcMark t = true ∨ isSubstrOf fastKw cap = true then fastKw
      else if isSubstrOf acMark t = true ∨ isSubstrOf slowKw cap = true then slowKw
      else fastKw := by
  unfold chargeType
  by_cases h1 : isSubstrOf dcMark t = true ∨ isSubstrOf fastKw cap = true
  · rw [if_pos (by rcases h1 with h | h <;> simp [h]), if_pos h1]
  · rw [if_neg (fun hb => by
      rcases (by simpa [Bool.or_eq_true, or_assoc, or_self] using hb :
          isSubstrOf dcMark t = true ∨ isSubstrOf fastKw cap = true) with h | h
      · exact h1 (Or.inl h)
      · exact h1 (Or.inr h)), if_neg h1]
    by_cases h2 : isSubstrOf acMark t = true ∨ isSubstrOf slowKw cap = true
    · rw [if_pos (by rcases h2 with h | h <;> simp [h]), if_pos h2]
    · rw [if_neg (fun hb => by
        rcases (by simpa [Bool.or_eq_true, or_assoc, or_self] using hb :
            isSubstrOf acMark t = true ∨ isSubstrOf slowKw cap = true) with h | h
        · exact h2 (Or.inl h)
        · exact h2 (Or.inr h)), if_neg h2]

/-- Claim C1, amended: every entry in the output comes from an input charger
via `buildEntry`, and its charge type is classified from the charger-type
code and the capacity descriptor only (fast if the DC marker or fast-charge
keyword is present, else slow if the AC marker or slow-charge keyword is
present, else fast); the availability-time descriptor plays no role. -/
theorem C1_charge_type_classification :
    (∀ (chargers : List Charger) (lots : List (List Char × List LotRow))
      (l : List Char) (lm : LotMatch) (e : MatchedCharger),
      (l, lm) ∈ match_charger_to_parking_lot chargers lots → e ∈ lm.chargers →
      ∃ c ∈ chargers, e = buildEntry c ∧
        ((isSubstrOf dcMark c.charger_type = true ∨ isSubstrOf fastKw c.capacity = true) →
          e.charge_type = fastKw) ∧
        (¬(isSubstrOf dcMark c.charger_type = true ∨ isSubstrOf fastKw c.capacity = true) →
          (isSubstrOf acMark c.charger_type = true ∨ isSubstrOf slowKw c.capacity = true) →
          e.charge_type = slowKw) ∧
        (¬(isSubstrOf dcMark c.charger_type = true ∨ isSubstrOf fastKw c.capacity = true) →
          ¬(isSubstrOf acMark c.charger_type = true ∨ isSubstrOf slowKw c.capacity = true) →
          e.charge_type = fastKw)) ∧
    (∀ (c : Charger) (av : List Char),
      (buildEntry { c with available_time := av }).charge_type =
        (buildEntry c).charge_type) := by
  constructor
  · intro chargers lots l lm e hmem hin
    unfold match_charger_to_parking_lot at hmem
    rcases matchFold_entry (buildDict lots) chargers [] l lm e hmem hin with
      ⟨lm₀, h0, -⟩ | ⟨c, hc, hbe⟩
    · exact absurd h0 (List.not_mem_nil (l, lm₀))
    · have hct : e.charge_type = chargeType c.charger_type c.capacity := by
        rw [hbe]
        rfl
      refine ⟨c, hc, hbe, ?_, ?_, ?_⟩
      · intro h
        rw [hct, chargeType_spec, if_pos h]
      · intro hn h
        rw [hct, chargeType_spec, if_neg hn, if_pos h]
      · intro hn1 hn2
        rw [hct, chargeType_spec, if_neg hn1, if_neg hn2]
  · intro c av
    rfl

/-- Claim C1, counterexample: a matched charger with empty charger-type code
and capacity whose availability-time descriptor contains the slow-charge
keyword is classified fast by the code, while the claim classifies it slow. -/
theorem C1_charge_type_counterexample :
    match_charger_to_parking_lot [chargerB] regA =
      [(lotAName, ⟨true, [buildEntry chargerB]⟩)] ∧
    (buildEntry chargerB).charge_type = fastKw ∧
    claimChargeType chargerB.charger_type chargerB.capacity chargerB.available_time
      = slowKw ∧
    fastKw ≠ slowKw :=
  ⟨by decide, by decide, by decide, by decide⟩

/-- Witness for C1 at a concrete matched charger. -/
theorem C1_charge_type_witness :
    ∃ c ∈ [chargerA], buildEntry chargerA = buildEntry c ∧
      ((isSubstrOf dcMark c.charger_type = true ∨ isSubstrOf fastKw c.capacity = true) →
        (buildEntry chargerA).charge_type = fastKw) ∧
      (¬(isSubstrOf dcMark c.charger_type = true ∨ isSubstrOf fastKw c.capacity = true) →
        (isSubstrOf acMark c.charger_type = true ∨ isSubstrOf slowKw c.capacity = true) →
        (buildEntry chargerA).charge_type = slowKw) ∧
      (¬(isSubstrOf dcMark c.charger_type = true ∨ isSubstrOf fastKw c.capacity = true) →
        ¬(isSubstrOf acMark c.charger_type = true ∨ isSubstrOf slowKw c.capacity = true) →
        (buildEntry chargerA).charge_type = fastKw) :=
  C1_charge_type_classification.1 [chargerA] regA lotAName
    ⟨true, [buildEntry chargerA]⟩ (buildEntry chargerA) (by decide) (by decide)

/-- Claim C2, confirmed: for a pair where both names contain 문화건강 and the
dongs disagree, a 수영장 hit in either normalized address gives the pair
score exactly 70 and updates the running best exactly when 70 meets the
threshold and strictly exceeds it, skipping the remaining rules; without a
수영장 hit the pair is rejected with score 0. -/
theorem C2_special_case_pool (ch : ChargerCtx) (st : Option (List Char) × Nat)
    (l : List Char) (info : LotInfo)
    (hmc : specialCase l ch.charger_name = true)
    (hdong : ch.dong ≠ some info.dong_name) :
    (poolHit ch info = true →
      pairScore ch l info = 70 ∧
      stepLot ch st (l, info) =
        (if 60 ≤ 70 ∧ st.2 < 70 then (some l, 70) else st)) ∧
    (poolHit ch info = false →
      pairScore ch l info = 0 ∧ stepLot ch st (l, info) = st) := by
  constructor
  · intro hpool
    constructor
    · simp only [pairScore]
      rw [if_pos ⟨hmc, hdong, hpool⟩]
    · simp only [stepLot]
      rw [if_pos ⟨hmc, hdong, hpool⟩]
      unfold updStep
      by_cases hlt : st.2 < 70
      · rw [if_pos ⟨hlt, by decide⟩, if_pos ⟨by decide, hlt⟩]
      · rw [if_neg (fun hc => hlt hc.1), if_neg (fun hc => hlt hc.2)]
  · intro hpool
    have hcond : ¬(specialCase l ch.charger_name = true ∧
        ch.dong ≠ some info.dong_name ∧ poolHit ch info = true) := by
      intro hc
      rw [hpool] at hc
      exact Bool.false_ne_true hc.2.2
    constructor
    · simp only [pairScore]
      rw [if_neg hcond, if_pos hdong]
    · simp only [stepLot]
      rw [if_neg hcond, if_pos hdong]

/-- Witness for C2 at a concrete special-case pair with a pool hit. -/
theorem C2_special_case_pool_witness :
    pairScore (mkCtx chargerC) lotCName infoC = 70 ∧
    stepLot (mkCtx chargerC) (none, 0) (lotCName, infoC) =
      (if 60 ≤ 70 ∧ (0 : Nat) < 70 then (some lotCName, 70)
       else ((none : Option (List Char)), 0)) :=
  (C2_special_case_pool (mkCtx chargerC) (none, 0) lotCName infoC
    (by decide) (by decide)).1 (by decide)

theorem truthy_some_of_ne_nil (lan : List Char) (h : lan ≠ []) :
    truthy (some lan) = true := by
  cases lan with
  | nil => exact absurd rfl h
  | cons a t => rfl

/-- Claim C3, amended: for a pair with agreeing dongs, unequal normalized
addresses, equal present lot-number tokens and a positive name signal, the
accumulated score is 140 when the lot-number token also occurs as a
substring of the charger's address (rule 5 stacks on rule 4), and exactly
80 only when it does not. -/
theorem C3_lot_number_score (ch : ChargerCtx) (l : List Char) (info : LotInfo)
    (lan : List Char)
    (hdong : ch.dong = some info.dong_name)
    (haddr : info.address ≠ ch.address)
    (hct : truthy ch.address_number = true)
    (hlan : info.address_number = some lan)
    (hlannil : lan ≠ [])
    (heq : ch.address_number = info.address_number)
    (hsig : nameSignal l ch.charger_name = true) :
    pairScore ch l info = if isSubstrOf lan ch.address = true then 140 else 80 := by
  have hnotne : ¬ ch.dong ≠ some info.dong_name := fun hc => hc hdong
  have hcond1 : ¬(specialCase l ch.charger_name = true ∧
      ch.dong ≠ some info.dong_name ∧ poolHit ch info = true) :=
    fun hc => hnotne hc.2.1
  simp only [pairScore]
  rw [if_neg hcond1, if_neg hnotne]
  simp only [normalScore, hlan]
  rw [if_neg haddr]
  have hlt : truthy (some lan) = true := truthy_some_of_ne_nil lan hlannil
  rw [if_pos ⟨hct, hlt⟩]
  have hsig' : (lotNameInCharger l ch.charger_name ||
      (specialCase l ch.charger_name || keywordMatchBase l ch.charger_name)) = true := by
    simpa [nameSignal] using hsig
  rw [if_pos ⟨heq.trans hlan, hsig'⟩]
  by_cases hsub : isSubstrOf lan ch.address = true
  · rw [if_pos ⟨hlannil, hsub, hsig'⟩, if_pos hsub]
  · rw [if_neg (fun hc => hsub hc.2.1), if_neg hsub]

/-- Claim C3, counterexample: a concrete pair satisfying every hypothesis of
the claim whose accumulated score is 140, not 80, because the lot-number
token is also a substring of the charger's address. -/
theorem C3_lot_number_score_counterexample :
    (mkCtx chargerE).dong = some infoA.dong_name ∧
    infoA.address ≠ (mkCtx chargerE).address ∧
    truthy (mkCtx chargerE).address_number = true ∧
    truthy infoA.address_number = true ∧
    (mkCtx chargerE).address_number = infoA.address_number ∧
    nameSignal lotAName (mkCtx chargerE).charger_name = true ∧
    (lotAName, infoA) ∈ buildDict regA ∧
    pairScore (mkCtx chargerE) lotAName infoA = 140 ∧ (140 : Nat) ≠ 80 := by
  decide

/-- Witness for C3 at a concrete pair where the substring rule does not
fire, so the score is exactly 80. -/
theorem C3_lot_number_score_witness :
    pairScore (mkCtx chargerD) lotAName infoA =
      if isSubstrOf ("조례동 1807".data) (mkCtx chargerD).address = true
      then 140 else 80 :=
  C3_lot_number_score (mkCtx chargerD) lotAName infoA ("조례동 1807".data)
    (by decide) (by decide) (by decide) (by decide) (by decide) (by decide)
    (by decide)

/-- Claim C4, confirmed: a candidate replaces the running best exactly when
its accumulated score is at least 60 and strictly greater than the running
best; every winning best score is at least 60; an equal score never
replaces the earlier candidate. -/
theorem C4_threshold_selection :
    (∀ (ch : ChargerCtx) (st : Option (List Char) × Nat) (e : List Char × LotInfo),
      stepLot ch st e =
        if 60 ≤ pairScore ch e.1 e.2 ∧ st.2 < pairScore ch e.1 e.2 then
          (some e.1, pairScore ch e.1 e.2)
        else st) ∧
    (∀ (ch : ChargerCtx) (dict : List (List Char × LotInfo)) (l : List Char)
      (s : Nat), bestFor ch dict = (some l, s) → 60 ≤ s) ∧
    (∀ (ch : ChargerCtx) (st : Option (List Char) × Nat) (e : List Char × LotInfo),
      pairScore ch e.1 e.2 = st.2 → stepLot ch st e = st) := by
  refine ⟨?_, ?_, ?_⟩
  · intro ch st e
    rw [stepLot_eq_updStep]
    unfold updStep
    by_cases hlt : st.2 < pairScore ch e.1 e.2
    · by_cases h60 : 60 ≤ pairScore ch e.1 e.2
      · rw [if_pos ⟨hlt, h60⟩, if_pos ⟨h60, hlt⟩]
      · rw [if_neg (fun hc => h60 hc.2), if_neg (fun hc => h60 hc.1)]
    · rw [if_neg (fun hc => hlt hc.1), if_neg (fun hc => hlt hc.2)]
  · intro ch dict l s hb
    have h := foldl_step_threshold ch dict (none, 0) (by intro hcontra; simp at hcontra)
    unfold bestFor at hb
    rw [hb] at h
    exact h rfl
  · intro ch st e heq
    rw [stepLot_eq_updStep]
    unfold updStep
    rw [if_neg (fun hc => (Nat.ne_of_lt hc.1) heq.symm)]

/-- Witness for C4 at a concrete charger, index and pair. -/
theorem C4_threshold_selection_witness :
    stepLot (mkCtx chargerA) (none, 0) (lotAName, infoA) =
      (if 60 ≤ pairScore (mkCtx chargerA) lotAName infoA ∧
          (0 : Nat) < pairScore (mkCtx chargerA) lotAName infoA then
        (some lotAName, pairScore (mkCtx chargerA) lotAName infoA)
      else ((none : Option (List Char)), 0)) ∧
    (60 : Nat) ≤ 160 :=
  ⟨C4_threshold_selection.1 (mkCtx chargerA) (none, 0) (lotAName, infoA),
   C4_threshold_selection.2.1 (mkCtx chargerA) (buildDict regA) lotAName 160
     (by decide)⟩

/-- Claim C5, confirmed: a non-special pair with disagreeing dongs is
rejected outright with score 0, and every lot a charger is matched to
either has the charger's derived dong as its registry dong or was matched
through the cultural/health-center pool branch. -/
theorem C5_dong_gate :
    (∀ (ch : ChargerCtx) (st : Option (List Char) × Nat) (e : List Char × LotInfo),
      specialCase e.1 ch.charger_name = false → ch.dong ≠ some e.2.dong_name →
      stepLot ch st e = st ∧ pairScore ch e.1 e.2 = 0) ∧
    (∀ (lots : List (List Char × List LotRow)) (ch : ChargerCtx) (l : List Char)
      (s : Nat) (info : LotInfo),
      bestFor ch (buildDict lots) = (some l, s) → (l, info) ∈ buildDict lots →
      ch.dong = some info.dong_name ∨
        (specialCase l ch.charger_name = true ∧ poolHit ch info = true ∧
          ch.dong ≠ some info.dong_name)) := by
  constructor
  · intro ch st e hspec hdong
    have hcond1 : ¬(specialCase e.1 ch.charger_name = true ∧
        ch.dong ≠ some e.2.dong_name ∧ poolHit ch e.2 = true) := by
      intro hc
      rw [hspec] at hc
      exact Bool.false_ne_true hc.1
    constructor
    · simp only [stepLot]
      rw [if_neg hcond1, if_pos hdong]
    · simp only [pairScore]
      rw [if_neg hcond1, if_pos hdong]
  · intro lots ch l s info hb hmem
    unfold bestFor at hb
    have hw := foldl_step_winner ch (buildDict lots) (none, 0) l (by rw [hb])
    rcases hw with h1 | ⟨info', hmem', hsc⟩
    · exact absurd h1 (by simp)
    · have hinfo : info' = info :=
        mem_keys_unique (buildDict lots) l info' info (buildDict_nodup lots) hmem' hmem
      subst hinfo
      by_cases hdong : ch.dong = some info'.dong_name
      · exact Or.inl hdong
      · right
        by_cases hcond : specialCase l ch.charger_name = true ∧
            ch.dong ≠ some info'.dong_name ∧ poolHit ch info' = true
        · exact ⟨hcond.1, hcond.2.2, hcond.2.1⟩
        · exfalso
          have hzero : pairScore ch l info' = 0 := by
            simp only [pairScore]
            rw [if_neg hcond, if_pos hdong]
          omega

/-- Witness for C5 at a concrete matched charger. -/
theorem C5_dong_gate_witness :
    (mkCtx chargerA).dong = some infoA.dong_name ∨
      (specialCase lotAName (mkCtx chargerA).charger_name = true ∧
        poolHit (mkCtx chargerA) infoA = true ∧
        (mkCtx chargerA).dong ≠ some infoA.dong_name) :=
  C5_dong_gate.2 regA (mkCtx chargerA) lotAName 160 infoA (by decide) (by decide)

/-- Claim C6, amended: when the extractor succeeds, its result is the
dong-token and the numeric designator (a digit followed by digits and
hyphens) joined by exactly one space, the two occurring contiguously in the
address separated by optional whitespace, at the leftmost position where
any such pattern starts; it returns absent exactly when no dong-token
followed by optional whitespace and a digit occurs anywhere, in particular
on empty input. -/
theorem C6_extract_lot_number (cs : List Char) :
    (∀ r, extract_address_number cs = some r →
      ∃ i w ws d tail rest,
        cs.drop i = (w ++ ['동']) ++ ws ++ (d :: tail) ++ rest ∧ w ≠ [] ∧
        allWordChars w ∧ allSpaceChars ws ∧ isDigitChar d = true ∧
        (∀ c ∈ tail, isNumTailChar c = true) ∧
        r = (w ++ ['동']) ++ ' ' :: d :: tail ∧
        ∀ j, j < i → ¬ patAt (cs.drop j)) ∧
    (extract_address_number cs = none ↔ ∀ i, ¬ patAt (cs.drop i)) := by
  constructor
  · intro r hr
    unfold extract_address_number at hr
    by_cases he : cs.isEmpty = true
    · rw [if_pos he] at hr
      exact absurd hr (by simp)
    · rw [if_neg he] at hr
      cases hs : searchDongNum cs with
      | none =>
        rw [hs] at hr
        exact absurd hr (by simp)
      | some g =>
        obtain ⟨g1, g2⟩ := g
        rw [hs] at hr
        have hrval : r = g1 ++ ' ' :: g2 := (Option.some.inj hr).symm
        obtain ⟨i, hmin, hmatch⟩ := searchDongNum_some cs g1 g2 hs
        obtain ⟨w, ws, d, tail, rest, hdec, hwne, hword, hg1, hws, hd, hg2, htail⟩ :=
          matchDongNumAt_some (cs.drop i) g1 g2 hmatch
        refine ⟨i, w, ws, d, tail, rest, hdec, hwne, hword, hws, hd, htail, ?_, hmin⟩
        rw [hrval, hg1, hg2]
  · unfold extract_address_number
    by_cases he : cs.isEmpty = true
    · rw [if_pos he]
      have hnil : cs = [] := List.isEmpty_iff.mp he
      subst hnil
      constructor
      · intro _ i
        rw [List.drop_nil]
        exact not_patAt_nil
      · intro _
        rfl
    · rw [if_neg he]
      cases hs : searchDongNum cs with
      | none =>
        rw [searchDongNum_none_iff] at hs
        exact ⟨fun _ => hs, fun _ => rfl⟩
      | some g =>
        obtain ⟨g1, g2⟩ := g
        constructor
        · intro hcontra
          exact absurd hcontra (by simp)
        · intro hall
          exfalso
          obtain ⟨i, hmin, hmatch⟩ := searchDongNum_some cs g1 g2 hs
          obtain ⟨w, ws, d, tail, rest, hdec, hwne, hword, -, hws, hd, -, -⟩ :=
            matchDongNumAt_some (cs.drop i) g1 g2 hmatch
          exact hall i ⟨w, ws, d, tail ++ rest,
            by rw [hdec]; simp [List.append_assoc], hwne, hword, hws, hd⟩

/-- Claim C6, counterexample: on an address with no whitespace at all the
dong-token is directly followed by the digits, so no dong-token followed by
whitespace exists, yet the extractor succeeds instead of returning absent. -/
theorem C6_extract_lot_number_counterexample :
    extract_address_number ("조례동1807".data) = some ("조례동 1807".data) ∧
    ¬ strictPatIn ("조례동1807".data) := by
  constructor
  · decide
  · rintro ⟨pre, w, ws, d, rest, hdec, -, -, hwsne, hws, -⟩
    obtain ⟨c, hc⟩ : ∃ c, c ∈ ws := by
      cases ws with
      | nil => exact absurd rfl hwsne
      | cons a t => exact ⟨a, List.mem_cons_self a t⟩
    have hcs : c ∈ ("조례동1807".data) := by
      rw [hdec]
      simp only [List.mem_append, List.mem_cons]
      tauto
    have hspace := hws c hc
    have hnospace : ∀ c ∈ ("조례동1807".data), isSpaceChar c = false := by decide
    rw [hnospace c hcs] at hspace
    exact Bool.false_ne_true hspace

/-- Witness for C6 at a concrete address. -/
theorem C6_extract_lot_number_witness :
    ∃ i w ws d tail rest,
      ("전남 순천시 조례동 1807".data).drop i =
        (w ++ ['동']) ++ ws ++ (d :: tail) ++ rest ∧ w ≠ [] ∧
      allWordChars w ∧ allSpaceChars ws ∧ isDigitChar d = true ∧
      (∀ c ∈ tail, isNumTailChar c = true) ∧
      "조례동 1807".data = (w ++ ['동']) ++ ' ' :: d :: tail ∧
      ∀ j, j < i → ¬ patAt (("전남 순천시 조례동 1807".data).drop j) :=
  (C6_extract_lot_number ("전남 순천시 조례동 1807".data)).1
    ("조례동 1807".data) (by decide)

/-- Claim C7, counterexample: an address beginning with the long form and
containing a second occurrence has both occurrences rewritten, so the
remainder after the prefix is not left unchanged. -/
theorem C7_normalize_counterexample :
    longForm.isPrefixOf ("전라남도 전라남도".data) = true ∧
    normalize_address ("전라남도 전라남도".data) = "전남 전남".data ∧
    normalize_address ("전라남도 전라남도".data) ≠
      shortForm ++ ("전라남도 전라남도".data).drop longForm.length :=
  ⟨by decide, by decide, by decide⟩

/-- Claim C7, amended: on an address beginning with the long-form province
name, normalize performs a left-to-right non-overlapping replacement of
every occurrence of the long form by the short form; any other address is
returned unchanged, and empty input yields the empty string. -/
theorem C7_normalize_replaces_all (cs : List Char) :
    (longForm.isPrefixOf cs = true → ReplRel cs (normalize_address cs)) ∧
    (longForm.isPrefixOf cs = false → normalize_address cs = cs) ∧
    (cs = [] → normalize_address cs = []) := by
  refine ⟨?_, ?_, ?_⟩
  · intro h
    rw [normalize_eq_repl cs h]
    exact replLong_rel cs
  · intro h
    exact normalize_eq_of_no_long cs h
  · intro h
    subst h
    rfl

/-- Witness for C7 at a concrete long-form address. -/
theorem C7_normalize_replaces_all_witness :
    ReplRel ("전라남도 순천시".data) (normalize_address ("전라남도 순천시".data)) :=
  (C7_normalize_replaces_all ("전라남도 순천시".data)).1 (by decide)

/-- Claim C8, confirmed: every lot name keyed in the match result names a
row of the supplied registry. -/
theorem C8_registry_closure (chargers : List Charger)
    (lots : List (List Char × List LotRow)) (l : List Char) (lm : LotMatch)
    (h : (l, lm) ∈ match_charger_to_parking_lot chargers lots) :
    ∃ p ∈ lots, ∃ row ∈ p.2, row.lot_name = l := by
  unfold match_charger_to_parking_lot at h
  rcases matchFold_key (buildDict lots) chargers [] l lm h with h1 | ⟨c, -, hb⟩
  · exact absurd h1 (by simp [keysOfMatch])
  · unfold bestFor at hb
    rcases foldl_step_winner (mkCtx c) (buildDict lots) (none, 0) l hb with
      h2 | ⟨info, hmem, -⟩
    · exact absurd h2 (by simp)
    · exact buildDict_mem lots l info hmem

/-- Witness for C8 at a concrete run. -/
theorem C8_registry_closure_witness :
    ∃ p ∈ regA, ∃ row ∈ p.2, row.lot_name = lotAName :=
  C8_registry_closure [chargerA] regA lotAName ⟨true, [buildEntry chargerA]⟩
    (by decide)

/-- Claim C9, confirmed: the match operation is a total function; a charger
whose scan yields no qualifying best leaves the result untouched, and
empty address input degrades extraction to empty or absent results rather
than failing. -/
theorem C9_no_failure_semantics :
    (∀ (dict : List (List Char × LotInfo)) (m : List (List Char × LotMatch))
      (c : Charger), (bestFor (mkCtx c) dict).1 = none →
      processCharger dict m c = m) ∧
    normalize_address [] = [] ∧
    extract_dong_from_address [] = none ∧
    extract_address_number [] = none := by
  refine ⟨?_, rfl, rfl, rfl⟩
  intro dict m c h
  unfold processCharger
  rw [h]

/-- Witness for C9 at a concrete charger with no qualifying match. -/
theorem C9_no_failure_semantics_witness :
    processCharger (buildDict regA) [] chargerF = [] :=
  C9_no_failure_semantics.1 (buildDict regA) [] chargerF (by decide)

/-- Claim C10, confirmed: address normalization is idempotent. -/
theorem C10_normalize_idempotent (cs : List Char) :
    normalize_address (normalize_address cs) = normalize_address cs := by
  by_cases h : longForm.isPrefixOf cs = true
  · rw [normalize_eq_repl cs h]
    obtain ⟨t, rfl⟩ := (isPrefixOf_true_iff _ _).mp h
    rw [replLong_long_head t]
    exact normalize_eq_of_no_long _ (longForm_not_pre_short (replLong t))
  · have hf : longForm.isPrefixOf cs = false := Bool.eq_false_iff.mpr h
    rw [normalize_eq_of_no_long cs hf, normalize_eq_of_no_long cs hf]
